import Mathlib

/-!
Verification of the set-reconciliation core (Invertible Bloom Filter and
Strata Estimator) against its natural-language specification.

The embedding follows `src/ibf.rs` and `src/strata_estimator.rs`:

* a 32-byte content identifier is a function `Fin 32 → Nat` (each entry a byte);
* `Cell` is the IBF slot `(id, hash, count)` with XOR-additive combination;
* an `IBF` is modelled as a total map from cell index to `Cell`; every
  operation of the source only ever touches indices below the filter size `N`,
  which is passed explicitly to the operations that read the array bounds;
* the external hash functions (`blake3`, `xxh3_64`, `xxh3_64_with_seed`) are
  third-party crates, not code of this repository, so they enter the
  embedding as parameters: `chk : HashId → Nat` is the 64-bit cell checksum
  (`xxh3_64`), `idxOf : HashId → List Nat` is the per-identifier sequence of
  cell indices produced by `distinct_hashes_in_range`, and for the index
  generator itself `xxh : Nat → Nat` maps a seed to the 64-bit keyed hash of
  the fixed input (`xxh3_64_with_seed`);
* the source's unbounded loops (`RecoverIterator` driven to exhaustion, the
  rejection-sampling seed search) take an explicit fuel argument.
-/

namespace SetRecon

/-- A 32-byte identifier: byte `i` of the hash, as in `[u8; HASH_SIZE]`. -/
abbrev HashId := Fin 32 → Nat

/-- The number of bytes in an identifier (`HASH_SIZE` in `ibf.rs`). -/
def HASH_SIZE : Nat := 32

/-- Result of a successful purity test, as in `enum PureCell` of `ibf.rs`. -/
inductive PureCell where
  | Pos (id : HashId)
  | Neg (id : HashId)

instance : DecidableEq PureCell := fun x y =>
  match x, y with
  | PureCell.Pos a, PureCell.Pos b =>
    if h : a = b then Decidable.isTrue (congrArg PureCell.Pos h)
    else Decidable.isFalse fun hc => h (PureCell.Pos.inj hc)
  | PureCell.Pos _, PureCell.Neg _ => Decidable.isFalse fun hc => PureCell.noConfusion hc
  | PureCell.Neg _, PureCell.Pos _ => Decidable.isFalse fun hc => PureCell.noConfusion hc
  | PureCell.Neg a, PureCell.Neg b =>
    if h : a = b then Decidable.isTrue (congrArg PureCell.Neg h)
    else Decidable.isFalse fun hc => h (PureCell.Neg.inj hc)

/-- One IBF slot, as in `struct Cell` of `ibf.rs`: the XOR of the ids mapped
here, the XOR of their 64-bit checksums, and the signed multiplicity. -/
structure Cell where
  id : HashId
  hash : Nat
  count : Int
deriving DecidableEq

/-- The cell for a single freshly inserted id (`Cell::new`), with checksum
function `chk` standing for `xxh3_64`. -/
def Cell.new (chk : HashId → Nat) (id : HashId) : Cell :=
  { id := id, hash := chk id, count := 1 }

/-- Emptiness test of a cell (`Cell::is_empty`): only the count is consulted. -/
def Cell.is_empty (c : Cell) : Bool :=
  c.count == 0

/-- Checksum re-verification (`Cell::hash_matches`). -/
def Cell.hash_matches (chk : HashId → Nat) (c : Cell) : Bool :=
  chk c.id == c.hash

/-- Purity test of a cell (`Cell::get_if_pure`): count `-1` with a matching
checksum is a pure negative, count `1` with a matching checksum a pure
positive, anything else is impure. -/
def Cell.get_if_pure (chk : HashId → Nat) (c : Cell) : Option PureCell :=
  if c.count = -1 then
    if c.hash_matches chk then some (PureCell.Neg c.id) else none
  else if c.count = 1 then
    if c.hash_matches chk then some (PureCell.Pos c.id) else none
  else none

/-- The all-empty cell (`Cell::default`). -/
def Cell.default : Cell :=
  { id := fun _ => 0, hash := 0, count := 0 }

/-- Cell combination (`Cell::add_assign`): XOR the ids bytewise, XOR the
checksums, add the counts. -/
def Cell.add (a b : Cell) : Cell :=
  { id := fun i => a.id i ^^^ b.id i, hash := a.hash ^^^ b.hash, count := a.count + b.count }

/-- Cell difference (`Cell::sub_assign`): XOR the ids bytewise, XOR the
checksums, subtract the counts. -/
def Cell.sub (a b : Cell) : Cell :=
  { id := fun i => a.id i ^^^ b.id i, hash := a.hash ^^^ b.hash, count := a.count - b.count }

/-- Cell negation: the inverse for `Cell.add`, with the same id and checksum
and negated count (the cell a `remove` contributes). -/
def Cell.neg (a : Cell) : Cell :=
  { id := a.id, hash := a.hash, count := -a.count }

instance : Add Cell := ⟨Cell.add⟩

instance : Zero Cell := ⟨Cell.default⟩

instance : Neg Cell := ⟨Cell.neg⟩

instance : Sub Cell := ⟨Cell.sub⟩

instance : AddCommGroup Cell where
  nsmul := nsmulRec
  zsmul := zsmulRec
  add_assoc a b c := by
    show Cell.add (Cell.add a b) c = Cell.add a (Cell.add b c)
    cases a; cases b; cases c
    simp only [Cell.add, Cell.mk.injEq]
    exact ⟨funext fun i => Nat.xor_assoc _ _ _, Nat.xor_assoc _ _ _, add_assoc _ _ _⟩
  zero_add a := by
    show Cell.add Cell.default a = a
    cases a
    simp only [Cell.add, Cell.default, Cell.mk.injEq]
    exact ⟨funext fun i => Nat.zero_xor _, Nat.zero_xor _, zero_add _⟩
  add_zero a := by
    show Cell.add a Cell.default = a
    cases a
    simp only [Cell.add, Cell.default, Cell.mk.injEq]
    exact ⟨funext fun i => Nat.xor_zero _, Nat.xor_zero _, add_zero _⟩
  add_comm a b := by
    show Cell.add a b = Cell.add b a
    cases a; cases b
    simp only [Cell.add, Cell.mk.injEq]
    exact ⟨funext fun i => Nat.xor_comm _ _, Nat.xor_comm _ _, add_comm _ _⟩
  neg_add_cancel a := by
    show Cell.add (Cell.neg a) a = Cell.default
    cases a
    simp only [Cell.add, Cell.neg, Cell.default, Cell.mk.injEq]
    exact ⟨funext fun i => Nat.xor_self _, Nat.xor_self _, neg_add_cancel _⟩
  sub_eq_add_neg a b := by
    show Cell.sub a b = Cell.add a (Cell.neg b)
    cases a; cases b
    simp only [Cell.sub, Cell.add, Cell.neg, Cell.mk.injEq]
    exact ⟨trivial, trivial, sub_eq_add_neg _ _⟩

/-- The additive-group homomorphism reading off a cell's count. -/
def countHom : Cell →+ Int :=
  { toFun := Cell.count, map_zero' := rfl, map_add' := fun _ _ => rfl }

/-- An IBF is an array of cells (`struct IBF<N, K>`), modelled as a total map
from cell index to cell; the array length `N` is passed to the operations
that scan the array. -/
abbrev IBF := Nat → Cell

/-- The all-empty filter (`IBF::default`). -/
def IBF.default : IBF := fun _ => Cell.default

/-- Elementwise filter combination (`IBF::add_assign`). -/
def IBF.add (f g : IBF) : IBF := fun i => Cell.add (f i) (g i)

/-- Elementwise filter difference (`IBF::sub_assign`). -/
def IBF.sub (f g : IBF) : IBF := fun i => Cell.sub (f i) (g i)

/-- Insertion of an id (`IBF::insert_hash`): combine `Cell.new` into each of
the cells selected by the index generator for this id. -/
def IBF.insert_hash (idxOf : HashId → List Nat) (chk : HashId → Nat)
    (f : IBF) (item_hash : HashId) : IBF :=
  (idxOf item_hash).foldl
    (fun g idx => fun j => if j = idx then Cell.add (g j) (Cell.new chk item_hash) else g j) f

/-- Removal of an id (`IBF::remove_hash`): subtract `Cell.new` from each of
the cells selected by the index generator for this id. -/
def IBF.remove_hash (idxOf : HashId → List Nat) (chk : HashId → Nat)
    (f : IBF) (item_hash : HashId) : IBF :=
  (idxOf item_hash).foldl
    (fun g idx => fun j => if j = idx then Cell.sub (g j) (Cell.new chk item_hash) else g j) f

/-- Filter emptiness (`IBF::is_empty`): every one of the `N` cells is empty. -/
def IBF.is_empty (N : Nat) (f : IBF) : Bool :=
  (List.range N).all fun i => (f i).is_empty

/-- Linear scan for the first pure cell (`IBF::find_pure`), in index order. -/
def IBF.find_pure (chk : HashId → Nat) (N : Nat) (f : IBF) : Option PureCell :=
  (List.range N).findSome? fun i => (f i).get_if_pure chk

/-- The filter built by inserting every id of a list into a fresh IBF
(`ibf(S)` in the specification). -/
def ibfOf (idxOf : HashId → List Nat) (chk : HashId → Nat) (items : List HashId) : IBF :=
  items.foldl (fun f h => IBF.insert_hash idxOf chk f h) IBF.default

/-- One decoding step (`RecoverIterator::next`): find the first pure cell; a
pure positive is unwound by removal, a pure negative by insertion; if no cell
is pure, nothing is emitted and the filter is untouched. -/
def RecoverIterator.next (idxOf : HashId → List Nat) (chk : HashId → Nat)
    (N : Nat) (f : IBF) : Option PureCell × IBF :=
  match IBF.find_pure chk N f with
  | none => (none, f)
  | some (PureCell.Pos h) => (some (PureCell.Pos h), IBF.remove_hash idxOf chk f h)
  | some (PureCell.Neg h) => (some (PureCell.Neg h), IBF.insert_hash idxOf chk f h)

/-- Success test of the decoder (`RecoverIterator::is_fully_recovered`): the
underlying filter is empty. -/
def RecoverIterator.is_fully_recovered (N : Nat) (f : IBF) : Bool :=
  IBF.is_empty N f

/-- Driving the decoding iterator to exhaustion (`IBF::recover_items`),
collecting the emitted pure cells and the final filter; `fuel` bounds the
number of iterations of the source's unbounded `while let` loop. -/
def recover_items (idxOf : HashId → List Nat) (chk : HashId → Nat) (N : Nat) :
    Nat → IBF → List PureCell × IBF
  | 0, f => ([], f)
  | fuel + 1, f =>
    match RecoverIterator.next idxOf chk N f with
    | (none, f2) => ([], f2)
    | (some p, f2) =>
      let r := recover_items idxOf chk N fuel f2
      (p :: r.1, r.2)

/-- The ids of the positive emissions of a decoder run. -/
def posIds (l : List PureCell) : List HashId :=
  l.filterMap fun p => match p with
    | PureCell.Pos x => some x
    | PureCell.Neg _ => none

/-- The ids of the negative emissions of a decoder run. -/
def negIds (l : List PureCell) : List HashId :=
  l.filterMap fun p => match p with
    | PureCell.Pos _ => none
    | PureCell.Neg x => some x

/-- The binary-digit loop of the population count, recursing on an explicit
fuel so that it evaluates by kernel reduction; `fuel ≥ n` suffices since the
argument halves each step. -/
def count_ones_go : Nat → Nat → Nat
  | 0, _ => 0
  | fuel + 1, n => if n = 0 then 0 else n % 2 + count_ones_go fuel (n / 2)

/-- Population count of a natural number (`usize::count_ones` in Rust). -/
def count_ones (n : Nat) : Nat :=
  count_ones_go n n

/-- The rejection-sampling seed search inside `distinct_hashes_in_range`: from
`seed` upward, find the first seed whose masked hash is in range and not yet
used, returning that seed together with its hash (the source's combined
`while hash >= N` / `if !used_nums[hash]` loop); `fuel` bounds the search. -/
def searchSeed (xxh : Nat → Nat) (N bitmask : Nat) (used : Nat → Bool) :
    Nat → Nat → Option (Nat × Nat)
  | 0, _ => none
  | fuel + 1, seed =>
    let hash := xxh seed &&& bitmask
    if N ≤ hash then searchSeed xxh N bitmask used fuel (seed + 1)
    else if used hash then searchSeed xxh N bitmask used fuel (seed + 1)
    else some (seed, hash)

/-- The generator loop of `distinct_hashes_in_range`, producing the remaining
`k` indices given the used-marks and the current seed. After a yield the seed
is left unchanged, exactly as in the source (the next call rejects the
just-used value and moves on). -/
def distinctHashesGo (xxh : Nat → Nat) (N bitmask fuel : Nat) :
    Nat → (Nat → Bool) → Nat → Option (List Nat)
  | 0, _, _ => some []
  | k + 1, used, seed =>
    match searchSeed xxh N bitmask used fuel seed with
    | none => none
    | some (seed2, hash) =>
      match distinctHashesGo xxh N bitmask fuel k
          (fun x => if x = hash then true else used x) seed2 with
      | none => none
      | some rest => some (hash :: rest)

/-- The `K` distinct cell indices for one input (`distinct_hashes_in_range`):
mask with the next power of two of `N`, rejection-sample fresh in-range
values over increasing seeds. The source's loops are unbounded; `fuel` bounds
each seed search, and `none` models a search that did not finish in `fuel`
steps. -/
def distinct_hashes_in_range (xxh : Nat → Nat) (N K fuel : Nat) : Option (List Nat) :=
  let bitmask := (if count_ones N = 1 then N else Nat.nextPowerOfTwo N) - 1
  distinctHashesGo xxh N bitmask fuel K (fun _ => false) 0

/-- Leading zero bits of one byte (`u8::leading_zeros`), written as an
explicit case split on the highest set bit. -/
def u8_leading_zeros (b : Nat) : Nat :=
  if 128 ≤ b then 0
  else if 64 ≤ b then 1
  else if 32 ≤ b then 2
  else if 16 ≤ b then 3
  else if 8 ≤ b then 4
  else if 4 ≤ b then 5
  else if 2 ≤ b then 6
  else if 1 ≤ b then 7
  else 8

/-- The byte-scanning loop of `leading_zeros` in `strata_estimator.rs`:
accumulate each byte's leading zeros, stopping after the first byte that is
not all zeros or after the last byte. A fuel of 32 is enough, since `i`
increases by one per iteration and the loop stops at `i = 32`. -/
def leadingZerosGo (h : HashId) : Nat → Nat → Nat → Nat
  | 0, _, total => total
  | fuel + 1, i, total =>
    if hi : i < 32 then
      let zeros := u8_leading_zeros (h ⟨i, hi⟩)
      if zeros ≠ 8 ∨ 32 ≤ i + 1 then total + zeros
      else leadingZerosGo h fuel (i + 1) (total + zeros)
    else total

/-- Leading zero bits of a 32-byte id, big-endian, byte 0 first
(`leading_zeros` in `strata_estimator.rs`). -/
def leading_zeros (h : HashId) : Nat :=
  leadingZerosGo h 32 0 0

/-- Stratum selection (`Estimator::bucket_for_hash`): clamp the leading-zero
count to the last stratum. -/
def bucket_for_hash (S : Nat) (item_hash : HashId) : Nat :=
  min (S - 1) (leading_zeros item_hash)

/-- A strata estimator is an array of `S` IBFs (`struct Estimator<S>`),
modelled as a total map from stratum index to filter. -/
abbrev Estimator := Nat → IBF

/-- Insertion into the estimator (`Estimator::insert_hash`): forward to the
IBF of the id's stratum. -/
def Estimator.insert_hash (idxOf : HashId → List Nat) (chk : HashId → Nat)
    (S : Nat) (e : Estimator) (item_hash : HashId) : Estimator :=
  fun j => if j = bucket_for_hash S item_hash
    then IBF.insert_hash idxOf chk (e j) item_hash else e j

/-- Removal from the estimator (`Estimator::remove_hash`). -/
def Estimator.remove_hash (idxOf : HashId → List Nat) (chk : HashId → Nat)
    (S : Nat) (e : Estimator) (item_hash : HashId) : Estimator :=
  fun j => if j = bucket_for_hash S item_hash
    then IBF.remove_hash idxOf chk (e j) item_hash else e j

/-- The decreasing sequence of levels the source's `estimate` iterates over:
`(-1..S as i64).rev()` visits `S-1, S-2, …, 0, -1`. -/
def levelsList (S : Nat) : List Int :=
  (List.range (S + 1)).map fun (k : Nat) => (S : Int) - 1 - (k : Int)

/-- The body of the `estimate` loop, following `Estimator::estimate` line by
line: at a negative level the loop breaks with the running count; otherwise
the level's stratum is decoded on a copy, an under-recovered stratum returns
`(2 << level) * count + (1 << level)`, and a fully recovered stratum adds its
recovered items to the running count. -/
def estimateLoop (idxOf : HashId → List Nat) (chk : HashId → Nat)
    (N fuel : Nat) (strata : Estimator) : List Int → Nat → Nat
  | [], count => count
  | level :: rest, count =>
    if level < 0 then count
    else
      let r := recover_items idxOf chk N fuel (strata level.toNat)
      let recovered := r.1.length
      let ok := RecoverIterator.is_fully_recovered N r.2
      if ok then estimateLoop idxOf chk N fuel strata rest (count + recovered)
      else (2 <<< level.toNat) * count + (1 <<< level.toNat)

/-- The difference-size estimate (`Estimator::estimate`). -/
def Estimator.estimate (idxOf : HashId → List Nat) (chk : HashId → Nat)
    (N fuel S : Nat) (strata : Estimator) : Nat :=
  estimateLoop idxOf chk N fuel strata (levelsList S) 0

/-- Modelled from the spec's estimate pseudocode (§4.5): iterate the strata
from `S−1` down to `0`; a stratum that decodes completely adds its recovered
count, and the first stratum `s` that does not decode returns
`2^(s+1) · count + 2^s`; if every stratum decodes the running count is
returned. The argument of the recursion is the number of strata still to
visit, so `s + 1` visits stratum `s` next. -/
def estimateSpec (idxOf : HashId → List Nat) (chk : HashId → Nat)
    (N fuel : Nat) (strata : Estimator) : Nat → Nat → Nat
  | 0, count => count
  | s + 1, count =>
    let r := recover_items idxOf chk N fuel (strata s)
    if IBF.is_empty N r.2
    then estimateSpec idxOf chk N fuel strata s (count + r.1.length)
    else 2 ^ (s + 1) * count + 2 ^ s

/-- Whether an optional pure cell names an id of the expected side: a
positive emission must name a remaining left-side id, a negative emission a
remaining right-side id. -/
def pureOk (A B : List HashId) : Option PureCell → Prop
  | none => True
  | some (PureCell.Pos x) => x ∈ A
  | some (PureCell.Neg x) => x ∈ B

instance (A B : List HashId) (o : Option PureCell) : Decidable (pureOk A B o) :=
  match o with
  | none => Decidable.isTrue trivial
  | some (PureCell.Pos x) => inferInstanceAs (Decidable (x ∈ A))
  | some (PureCell.Neg x) => inferInstanceAs (Decidable (x ∈ B))

/-- No sub-configuration of the difference of the two id lists contains a
false pure cell: for every pair of remainders of the two sides, a cell of
their difference that passes the purity test names an id of the matching
side. This is the checksum-collision-freedom assumption under which peeling
emissions are sound; it holds with overwhelming probability for the real
64-bit checksum and is decidable for any concrete instance. -/
def NoFalsePure (idxOf : HashId → List Nat) (chk : HashId → Nat)
    (N : Nat) (dA dB : List HashId) : Prop :=
  ∀ A2 ∈ dA.sublists, ∀ B2 ∈ dB.sublists, ∀ i ∈ List.range N,
    pureOk A2 B2 ((IBF.sub (ibfOf idxOf chk A2) (ibfOf idxOf chk B2) i).get_if_pure chk)

instance (idxOf : HashId → List Nat) (chk : HashId → Nat) (N : Nat) (dA dB : List HashId) :
    Decidable (NoFalsePure idxOf chk N dA dB) := by
  unfold NoFalsePure
  infer_instance

theorem Cell.add_eq (a b : Cell) : Cell.add a b = a + b := rfl

theorem Cell.sub_eq (a b : Cell) : Cell.sub a b = a - b := rfl

theorem Cell.default_eq : Cell.default = 0 := rfl

theorem IBF.sub_apply (f g : IBF) (j : Nat) : IBF.sub f g j = f j - g j := rfl

theorem IBF.add_apply (f g : IBF) (j : Nat) : IBF.add f g j = f j + g j := rfl

theorem insert_foldl_apply (chk : HashId → Nat) (h : HashId) (l : List Nat) (f : IBF) (j : Nat) :
    (l.foldl (fun g idx => fun j2 => if j2 = idx then Cell.add (g j2) (Cell.new chk h) else g j2)
        f) j
      = f j + l.count j • Cell.new chk h := by
  induction l generalizing f with
  | nil => simp
  | cons a l ih =>
    rw [List.foldl_cons, ih]
    by_cases hj : j = a
    · subst hj
      simp only [if_pos rfl, List.count_cons_self, Cell.add_eq, succ_nsmul]
      abel
    · simp only [if_neg hj, List.count_cons_of_ne hj]

theorem IBF.insert_hash_apply (idxOf : HashId → List Nat) (chk : HashId → Nat)
    (f : IBF) (h : HashId) (j : Nat) :
    IBF.insert_hash idxOf chk f h j = f j + (idxOf h).count j • Cell.new chk h :=
  insert_foldl_apply chk h (idxOf h) f j

theorem remove_foldl_apply (chk : HashId → Nat) (h : HashId) (l : List Nat) (f : IBF) (j : Nat) :
    (l.foldl (fun g idx => fun j2 => if j2 = idx then Cell.sub (g j2) (Cell.new chk h) else g j2)
        f) j
      = f j - l.count j • Cell.new chk h := by
  induction l generalizing f with
  | nil => simp
  | cons a l ih =>
    rw [List.foldl_cons, ih]
    by_cases hj : j = a
    · subst hj
      simp only [if_pos rfl, List.count_cons_self, Cell.sub_eq, succ_nsmul]
      abel
    · simp only [if_neg hj, List.count_cons_of_ne hj]

theorem IBF.remove_hash_apply (idxOf : HashId → List Nat) (chk : HashId → Nat)
    (f : IBF) (h : HashId) (j : Nat) :
    IBF.remove_hash idxOf chk f h j = f j - (idxOf h).count j • Cell.new chk h :=
  remove_foldl_apply chk h (idxOf h) f j

theorem ibfOf_foldl_apply (idxOf : HashId → List Nat) (chk : HashId → Nat)
    (L : List HashId) (f : IBF) (j : Nat) :
    (L.foldl (fun g h => IBF.insert_hash idxOf chk g h) f) j
      = f j + (L.map fun h => (idxOf h).count j • Cell.new chk h).sum := by
  induction L generalizing f with
  | nil => simp
  | cons h L ih =>
    rw [List.foldl_cons, ih, IBF.insert_hash_apply, List.map_cons, List.sum_cons, add_assoc]

theorem ibfOf_apply (idxOf : HashId → List Nat) (chk : HashId → Nat)
    (L : List HashId) (j : Nat) :
    ibfOf idxOf chk L j = (L.map fun h => (idxOf h).count j • Cell.new chk h).sum := by
  rw [ibfOf, ibfOf_foldl_apply]
  show Cell.default + _ = _
  rw [Cell.default_eq, zero_add]

theorem count_filter_if (p : HashId → Bool) (l : List HashId) (x : HashId) :
    (l.filter p).count x = if p x then l.count x else 0 := by
  induction l with
  | nil => simp
  | cons a l ih =>
    rw [List.filter_cons]
    by_cases hxa : x = a
    · subst hxa
      by_cases hpa : p x <;> simp [hpa, List.count_cons, ih]
    · by_cases hpa : p a <;> simp [hpa, hxa, List.count_cons, ih]

theorem nodup_count (A : List HashId) (hA : A.Nodup) (x : HashId) :
    A.count x = if x ∈ A then 1 else 0 := by
  by_cases hx : x ∈ A
  · rw [if_pos hx, List.count_eq_one_of_mem hA hx]
  · rw [if_neg hx, List.count_eq_zero_of_not_mem hx]

theorem common_filter_perm (A B : List HashId) (hA : A.Nodup) (hB : B.Nodup) :
    List.Perm (A.filter fun x => decide (x ∈ B)) (B.filter fun x => decide (x ∈ A)) := by
  rw [List.perm_iff_count]
  intro x
  rw [count_filter_if, count_filter_if, nodup_count A hA, nodup_count B hB]
  by_cases hxa : x ∈ A <;> by_cases hxb : x ∈ B <;> simp [hxa, hxb]

theorem union_filter_perm (A B : List HashId) (hA : A.Nodup) (hB : B.Nodup) :
    List.Perm (A ++ B.filter fun x => decide (x ∉ A))
      ((A.filter fun x => decide (x ∉ B)) ++ B) := by
  rw [List.perm_iff_count]
  intro x
  rw [List.count_append, List.count_append, count_filter_if, count_filter_if,
    nodup_count A hA, nodup_count B hB]
  by_cases hxa : x ∈ A <;> by_cases hxb : x ∈ B <;> simp [hxa, hxb]

theorem sub_ibfOf_filtered (idxOf : HashId → List Nat) (chk : HashId → Nat)
    (A B : List HashId) (hA : A.Nodup) (hB : B.Nodup) :
    IBF.sub (ibfOf idxOf chk A) (ibfOf idxOf chk B)
      = IBF.sub (ibfOf idxOf chk (A.filter fun x => decide (x ∉ B)))
          (ibfOf idxOf chk (B.filter fun x => decide (x ∉ A))) := by
  funext j
  rw [IBF.sub_apply, IBF.sub_apply, ibfOf_apply, ibfOf_apply, ibfOf_apply, ibfOf_apply,
    sub_eq_sub_iff_add_eq_add, ← List.sum_append, ← List.sum_append, ← List.map_append,
    ← List.map_append]
  exact ((union_filter_perm A B hA hB).map _).sum_eq

theorem find_pure_some (chk : HashId → Nat) (N : Nat) (f : IBF) (p : PureCell)
    (h : IBF.find_pure chk N f = some p) :
    ∃ i, i < N ∧ (f i).get_if_pure chk = some p := by
  obtain ⟨i, hi, hp⟩ := List.exists_of_findSome?_eq_some h
  exact ⟨i, List.mem_range.mp hi, hp⟩

theorem remove_hash_sub_erase (idxOf : HashId → List Nat) (chk : HashId → Nat)
    (A B : List HashId) (x : HashId) (hx : x ∈ A) :
    IBF.remove_hash idxOf chk (IBF.sub (ibfOf idxOf chk A) (ibfOf idxOf chk B)) x
      = IBF.sub (ibfOf idxOf chk (A.erase x)) (ibfOf idxOf chk B) := by
  funext j
  rw [IBF.remove_hash_apply, IBF.sub_apply, IBF.sub_apply]
  have hsum : ibfOf idxOf chk A j
      = (idxOf x).count j • Cell.new chk x + ibfOf idxOf chk (A.erase x) j := by
    rw [ibfOf_apply, ibfOf_apply, ((List.perm_cons_erase hx).map _).sum_eq,
      List.map_cons, List.sum_cons]
  rw [hsum]
  abel

theorem insert_hash_sub_erase (idxOf : HashId → List Nat) (chk : HashId → Nat)
    (A B : List HashId) (x : HashId) (hx : x ∈ B) :
    IBF.insert_hash idxOf chk (IBF.sub (ibfOf idxOf chk A) (ibfOf idxOf chk B)) x
      = IBF.sub (ibfOf idxOf chk A) (ibfOf idxOf chk (B.erase x)) := by
  funext j
  rw [IBF.insert_hash_apply, IBF.sub_apply, IBF.sub_apply]
  have hsum : ibfOf idxOf chk B j
      = (idxOf x).count j • Cell.new chk x + ibfOf idxOf chk (B.erase x) j := by
    rw [ibfOf_apply, ibfOf_apply, ((List.perm_cons_erase hx).map _).sum_eq,
      List.map_cons, List.sum_cons]
  rw [hsum]
  abel

theorem posIds_cons_pos (x : HashId) (l : List PureCell) :
    posIds (PureCell.Pos x :: l) = x :: posIds l := by
  simp [posIds]

theorem posIds_cons_neg (x : HashId) (l : List PureCell) :
    posIds (PureCell.Neg x :: l) = posIds l := by
  simp [posIds]

theorem negIds_cons_pos (x : HashId) (l : List PureCell) :
    negIds (PureCell.Pos x :: l) = negIds l := by
  simp [negIds]

theorem negIds_cons_neg (x : HashId) (l : List PureCell) :
    negIds (PureCell.Neg x :: l) = x :: negIds l := by
  simp [negIds]

theorem recover_items_inv (idxOf : HashId → List Nat) (chk : HashId → Nat) (N : Nat)
    (dA dB : List HashId) (hnfp : NoFalsePure idxOf chk N dA dB) :
    ∀ fuel (A B : List HashId), List.Sublist A dA → List.Sublist B dB →
    ∃ A2 B2, List.Sublist A2 A ∧ List.Sublist B2 B ∧
      (recover_items idxOf chk N fuel (IBF.sub (ibfOf idxOf chk A) (ibfOf idxOf chk B))).2
        = IBF.sub (ibfOf idxOf chk A2) (ibfOf idxOf chk B2) ∧
      List.Perm A (A2 ++ posIds (recover_items idxOf chk N fuel
        (IBF.sub (ibfOf idxOf chk A) (ibfOf idxOf chk B))).1) ∧
      List.Perm B (B2 ++ negIds (recover_items idxOf chk N fuel
        (IBF.sub (ibfOf idxOf chk A) (ibfOf idxOf chk B))).1) := by
  intro fuel
  induction fuel with
  | zero =>
    intro A B hA hB
    refine ⟨A, B, List.Sublist.refl A, List.Sublist.refl B, rfl, ?_, ?_⟩ <;>
      simp [recover_items, posIds, negIds]
  | succ fuel ih =>
    intro A B hA hB
    cases hfp : IBF.find_pure chk N (IBF.sub (ibfOf idxOf chk A) (ibfOf idxOf chk B)) with
    | none =>
      have hrec : recover_items idxOf chk N (fuel + 1)
          (IBF.sub (ibfOf idxOf chk A) (ibfOf idxOf chk B))
          = ([], IBF.sub (ibfOf idxOf chk A) (ibfOf idxOf chk B)) := by
        simp only [recover_items, RecoverIterator.next, hfp]
      rw [hrec]
      refine ⟨A, B, List.Sublist.refl A, List.Sublist.refl B, rfl, ?_, ?_⟩ <;>
        simp [posIds, negIds]
    | some p =>
      obtain ⟨i, hiN, hpi⟩ := find_pure_some chk N _ p hfp
      have hok := hnfp A (List.mem_sublists.mpr hA) B (List.mem_sublists.mpr hB)
        i (List.mem_range.mpr hiN)
      rw [hpi] at hok
      cases p with
      | Pos x =>
        have hxA : x ∈ A := hok
        have hrec : recover_items idxOf chk N (fuel + 1)
            (IBF.sub (ibfOf idxOf chk A) (ibfOf idxOf chk B))
            = (PureCell.Pos x :: (recover_items idxOf chk N fuel
                (IBF.sub (ibfOf idxOf chk (A.erase x)) (ibfOf idxOf chk B))).1,
              (recover_items idxOf chk N fuel
                (IBF.sub (ibfOf idxOf chk (A.erase x)) (ibfOf idxOf chk B))).2) := by
          simp only [recover_items, RecoverIterator.next, hfp,
            remove_hash_sub_erase idxOf chk A B x hxA]
        obtain ⟨A2, B2, hsubA, hsubB, hstate, hpermA, hpermB⟩ :=
          ih (A.erase x) B ((List.erase_sublist x A).trans hA) hB
        refine ⟨A2, B2, hsubA.trans (List.erase_sublist x A), hsubB, ?_, ?_, ?_⟩
        · rw [hrec]
          exact hstate
        · rw [hrec, posIds_cons_pos]
          exact (List.perm_cons_erase hxA).trans ((hpermA.cons x).trans List.perm_middle.symm)
        · rw [hrec, negIds_cons_pos]
          exact hpermB
      | Neg x =>
        have hxB : x ∈ B := hok
        have hrec : recover_items idxOf chk N (fuel + 1)
            (IBF.sub (ibfOf idxOf chk A) (ibfOf idxOf chk B))
            = (PureCell.Neg x :: (recover_items idxOf chk N fuel
                (IBF.sub (ibfOf idxOf chk A) (ibfOf idxOf chk (B.erase x)))).1,
              (recover_items idxOf chk N fuel
                (IBF.sub (ibfOf idxOf chk A) (ibfOf idxOf chk (B.erase x)))).2) := by
          simp only [recover_items, RecoverIterator.next, hfp,
            insert_hash_sub_erase idxOf chk A B x hxB]
        obtain ⟨A2, B2, hsubA, hsubB, hstate, hpermA, hpermB⟩ :=
          ih A (B.erase x) hA ((List.erase_sublist x B).trans hB)
        refine ⟨A2, B2, hsubA, hsubB.trans (List.erase_sublist x B), ?_, ?_, ?_⟩
        · rw [hrec]
          exact hstate
        · rw [hrec, posIds_cons_neg]
          exact hpermA
        · rw [hrec, negIds_cons_neg]
          exact (List.perm_cons_erase hxB).trans ((hpermB.cons x).trans List.perm_middle.symm)

theorem is_empty_iff (N : Nat) (f : IBF) :
    IBF.is_empty N f = true ↔ ∀ i < N, (f i).count = 0 := by
  simp [IBF.is_empty, Cell.is_empty, List.all_eq_true, List.mem_range]

theorem ibfOf_count (idxOf : HashId → List Nat) (chk : HashId → Nat)
    (L : List HashId) (j : Nat) :
    (ibfOf idxOf chk L j).count = (L.map fun h => ((idxOf h).count j : Int)).sum := by
  have h1 : (ibfOf idxOf chk L j).count = countHom (ibfOf idxOf chk L j) := rfl
  rw [h1, ibfOf_apply, map_list_sum, List.map_map]
  refine congrArg List.sum (List.map_congr_left fun h _ => ?_)
  show countHom ((idxOf h).count j • Cell.new chk h) = ((idxOf h).count j : Int)
  rw [map_nsmul]
  show (idxOf h).count j • (1 : Int) = ((idxOf h).count j : Int)
  simp

theorem sub_ibfOf_nil (idxOf : HashId → List Nat) (chk : HashId → Nat) (L : List HashId) :
    IBF.sub (ibfOf idxOf chk L) (ibfOf idxOf chk []) = ibfOf idxOf chk L := by
  funext j
  rw [IBF.sub_apply, ibfOf_apply idxOf chk []]
  show ibfOf idxOf chk L j - ([] : List Cell).sum = ibfOf idxOf chk L j
  rw [List.sum_nil, sub_zero]

theorem ibfOf_empty_imp_nil (idxOf : HashId → List Nat) (chk : HashId → Nat)
    (N : Nat) (L : List HashId) (hwf : ∀ h ∈ L, ∃ i ∈ idxOf h, i < N)
    (hemp : IBF.is_empty N (ibfOf idxOf chk L) = true) : L = [] := by
  cases L with
  | nil => rfl
  | cons h L =>
    exfalso
    obtain ⟨i, hiIdx, hiN⟩ := hwf h (List.mem_cons_self h L)
    have hzero : (ibfOf idxOf chk (h :: L) i).count = 0 :=
      (is_empty_iff N _).mp hemp i hiN
    rw [ibfOf_count] at hzero
    have hmem : ((idxOf h).count i : Int) ∈ (h :: L).map fun h2 => ((idxOf h2).count i : Int) :=
      List.mem_map_of_mem _ (List.mem_cons_self h L)
    have hpos : (1 : Int) ≤ ((idxOf h).count i : Int) := by
      have := List.count_pos_iff.mpr hiIdx
      omega
    have hnonneg : ∀ x ∈ (h :: L).map fun h2 => ((idxOf h2).count i : Int), 0 ≤ x := by
      intro x hx
      obtain ⟨h2, _, rfl⟩ := List.mem_map.mp hx
      exact Int.ofNat_nonneg _
    have := List.single_le_sum hnonneg _ hmem
    omega

theorem levelsList_zero : levelsList 0 = [-1] := by
  decide

theorem levelsList_succ (S : Nat) : levelsList (S + 1) = (S : Int) :: levelsList S := by
  unfold levelsList
  rw [List.range_succ_eq_map, List.map_cons, List.map_map]
  congr 1
  · push_cast
    ring
  · refine List.map_congr_left fun k _ => ?_
    show ((S + 1 : Nat) : Int) - 1 - ((Nat.succ k : Nat) : Int) = (S : Int) - 1 - (k : Int)
    push_cast
    ring

theorem estimateLoop_eq_spec (idxOf : HashId → List Nat) (chk : HashId → Nat)
    (N fuel : Nat) (strata : Estimator) :
    ∀ S count, estimateLoop idxOf chk N fuel strata (levelsList S) count
      = estimateSpec idxOf chk N fuel strata S count := by
  intro S
  induction S with
  | zero =>
    intro count
    rw [levelsList_zero]
    simp [estimateLoop, estimateSpec]
  | succ S ih =>
    intro count
    rw [levelsList_succ]
    show estimateLoop idxOf chk N fuel strata ((S : Int) :: levelsList S) count = _
    simp only [estimateLoop, estimateSpec, RecoverIterator.is_fully_recovered]
    rw [if_neg (Int.not_lt.mpr (Int.natCast_nonneg S)), Int.toNat_natCast]
    by_cases hok : IBF.is_empty N (recover_items idxOf chk N fuel (strata S)).2 = true
    · rw [if_pos hok, if_pos hok, ih]
    · rw [if_neg hok, if_neg hok, Nat.shiftLeft_eq, Nat.shiftLeft_eq, one_mul, pow_succ,
        mul_comm (2 ^ S) 2]

theorem searchSeed_some (xxh : Nat → Nat) (N bitmask : Nat) (used : Nat → Bool) :
    ∀ fuel seed s h, searchSeed xxh N bitmask used fuel seed = some (s, h) →
      h < N ∧ used h = false := by
  intro fuel
  induction fuel with
  | zero =>
    intro seed s h hs
    simp [searchSeed] at hs
  | succ fuel ih =>
    intro seed s h hs
    unfold searchSeed at hs
    by_cases h1 : N ≤ xxh seed &&& bitmask
    · rw [if_pos h1] at hs
      exact ih (seed + 1) s h hs
    · rw [if_neg h1] at hs
      by_cases h2 : used (xxh seed &&& bitmask) = true
      · rw [if_pos h2] at hs
        exact ih (seed + 1) s h hs
      · rw [if_neg h2] at hs
        obtain ⟨hseed, hhash⟩ := Prod.mk.injEq .. ▸ Option.some.injEq .. ▸ hs
        subst hhash
        exact ⟨Nat.lt_of_not_le h1, Bool.eq_false_iff.mpr h2⟩

theorem distinctHashesGo_spec (xxh : Nat → Nat) (N bitmask fuel : Nat) :
    ∀ k used seed l, distinctHashesGo xxh N bitmask fuel k used seed = some l →
      l.length = k ∧ (∀ i ∈ l, i < N) ∧ l.Nodup ∧ ∀ i ∈ l, used i = false := by
  intro k
  induction k with
  | zero =>
    intro used seed l h
    simp only [distinctHashesGo, Option.some.injEq] at h
    subst h
    simp
  | succ k ih =>
    intro used seed l h
    unfold distinctHashesGo at h
    cases hs : searchSeed xxh N bitmask used fuel seed with
    | none =>
      rw [hs] at h
      exact absurd h (by simp)
    | some sh =>
      obtain ⟨s2, hash⟩ := sh
      rw [hs] at h
      have h2 : (match distinctHashesGo xxh N bitmask fuel k
          (fun x => if x = hash then true else used x) s2 with
        | none => none
        | some rest => some (hash :: rest)) = some l := h
      obtain ⟨hhN, hhused⟩ := searchSeed_some xxh N bitmask used fuel seed s2 hash hs
      cases hr : distinctHashesGo xxh N bitmask fuel k
          (fun x => if x = hash then true else used x) s2 with
      | none =>
        rw [hr] at h2
        exact absurd h2 (by simp)
      | some rest =>
        rw [hr] at h2
        obtain rfl : hash :: rest = l := by simpa using h2
        obtain ⟨hlen, hbound, hnodup, hused⟩ := ih _ s2 rest hr
        have hne : ∀ i ∈ rest, i ≠ hash ∧ used i = false := by
          intro i hi
          have := hused i hi
          by_cases hih : i = hash
          · rw [if_pos hih] at this
            exact absurd this (by simp)
          · rw [if_neg hih] at this
            exact ⟨hih, this⟩
        refine ⟨by simp [hlen], ?_, ?_, ?_⟩
        · intro i hi
          rcases List.mem_cons.mp hi with rfl | hi
          · exact hhN
          · exact hbound i hi
        · exact List.nodup_cons.mpr ⟨fun hmem => (hne hash hmem).1 rfl, hnodup⟩
        · intro i hi
          rcases List.mem_cons.mp hi with rfl | hi
          · exact hhused
          · exact (hne i hi).2

/-- C1: for all duplicate-free id lists `S_A` and `S_B`, the IBF built from
`S_A` minus the IBF built from `S_B` equals, cell for cell, the IBF built
from `S_A \ S_B` minus the IBF built from `S_B \ S_A`; the contributions of
common elements cancel exactly. -/
theorem claim_C1_subtract_cancels_common (idxOf : HashId → List Nat) (chk : HashId → Nat)
    (A B : List HashId) (hA : A.Nodup) (hB : B.Nodup) (i : Nat) :
    IBF.sub (ibfOf idxOf chk A) (ibfOf idxOf chk B) i
      = IBF.sub (ibfOf idxOf chk (A.filter fun x => decide (x ∉ B)))
          (ibfOf idxOf chk (B.filter fun x => decide (x ∉ A))) i := by
  rw [sub_ibfOf_filtered idxOf chk A B hA hB]

/-- Witness for C1 at a concrete instance: two-element left list sharing one
element with the right list. -/
theorem claim_C1_subtract_cancels_common_witness :
    ([fun _ => 1, fun _ => 2] : List HashId).Nodup ∧
    ([fun _ => 2] : List HashId).Nodup ∧
    ∀ i : Nat,
      IBF.sub (ibfOf (fun _ => [0]) (fun _ => 0) [fun _ => 1, fun _ => 2])
          (ibfOf (fun _ => [0]) (fun _ => 0) [fun _ => 2]) i
        = IBF.sub
            (ibfOf (fun _ => [0]) (fun _ => 0)
              (([fun _ => 1, fun _ => 2] : List HashId).filter
                fun x => decide (x ∉ ([fun _ => 2] : List HashId))))
            (ibfOf (fun _ => [0]) (fun _ => 0)
              (([fun _ => 2] : List HashId).filter
                fun x => decide (x ∉ ([fun _ => 1, fun _ => 2] : List HashId)))) i :=
  ⟨by decide, by decide, fun i =>
    claim_C1_subtract_cancels_common (fun _ => [0]) (fun _ => 0) _ _
      (by decide) (by decide) i⟩

/-- C6: cell combination and difference with the empty cell form an abelian
group (associativity, commutativity, two-sided identity, inverse), and lifted
elementwise to filters, `A − A` is empty and `A + (default − A)` is empty. -/
theorem claim_C6_cell_abelian_group :
    (∀ a b c : Cell, Cell.add (Cell.add a b) c = Cell.add a (Cell.add b c)) ∧
    (∀ a b : Cell, Cell.add a b = Cell.add b a) ∧
    (∀ a : Cell, Cell.add a Cell.default = a ∧ Cell.add Cell.default a = a) ∧
    (∀ a : Cell, Cell.sub a a = Cell.default) ∧
    (∀ a : Cell, Cell.add a (Cell.sub Cell.default a) = Cell.default) ∧
    (∀ (N : Nat) (f : IBF), IBF.is_empty N (IBF.sub f f) = true) ∧
    (∀ (N : Nat) (f : IBF), IBF.is_empty N (IBF.add f (IBF.sub IBF.default f)) = true) := by
  refine ⟨?_, ?_, ?_, ?_, ?_, ?_, ?_⟩
  · intro a b c
    rw [Cell.add_eq, Cell.add_eq, Cell.add_eq, Cell.add_eq, add_assoc]
  · intro a b
    rw [Cell.add_eq, Cell.add_eq, add_comm]
  · intro a
    constructor
    · rw [Cell.add_eq, Cell.default_eq, add_zero]
    · rw [Cell.add_eq, Cell.default_eq, zero_add]
  · intro a
    rw [Cell.sub_eq, Cell.default_eq, sub_self]
  · intro a
    rw [Cell.add_eq, Cell.sub_eq, Cell.default_eq, zero_sub, add_neg_cancel]
  · intro N f
    rw [is_empty_iff]
    intro i _
    rw [IBF.sub_apply, sub_self]
    rfl
  · intro N f
    rw [is_empty_iff]
    intro i _
    rw [IBF.add_apply, IBF.sub_apply]
    show (f i + (Cell.default - f i)).count = 0
    rw [Cell.default_eq, zero_sub, add_neg_cancel]
    rfl

/-- C7: the stratum an id is routed to is `min(S − 1, leading_zeros(id))`, so
for `S ≥ 1` it always lies in `[0, S)`; the stratum array access cannot go
out of bounds, including for the all-zero id with 256 leading zeros. -/
theorem claim_C7_stratum_in_range (S : Nat) (hS : 1 ≤ S) (item_hash : HashId) :
    bucket_for_hash S item_hash = min (S - 1) (leading_zeros item_hash) ∧
    bucket_for_hash S item_hash < S :=
  ⟨rfl, lt_of_le_of_lt (min_le_left _ _) (Nat.sub_lt hS Nat.one_pos)⟩

/-- Witness for C7 at `S = 16` and the all-zero id. -/
theorem claim_C7_stratum_in_range_witness :
    1 ≤ 16 ∧
    (bucket_for_hash 16 (fun _ => 0) = min (16 - 1) (leading_zeros fun _ => 0) ∧
      bucket_for_hash 16 (fun _ => 0) < 16) :=
  ⟨by decide, claim_C7_stratum_in_range 16 (by decide) (fun _ => 0)⟩

/-- C8: `leading_zeros` returns 256 on the all-zero id, 128 on sixteen zero
bytes followed by sixteen `0xFF` bytes, and 12 on `00 0F` followed by
fourteen zero bytes and sixteen `0xFF` bytes. -/
theorem claim_C8_leading_zeros_examples :
    leading_zeros (fun _ => 0) = 256 ∧
    leading_zeros (fun i => if (i : Nat) < 16 then 0 else 255) = 128 ∧
    leading_zeros (fun i => if (i : Nat) = 1 then 15 else if (i : Nat) < 16 then 0 else 255)
      = 12 := by
  refine ⟨?_, ?_, ?_⟩ <;> decide

/-- C9: `is_fully_recovered` returns true exactly when every cell of the
underlying filter has count 0; under-recovery is reported only through this
boolean result. -/
theorem claim_C9_fully_recovered_iff_empty (N : Nat) (f : IBF) :
    RecoverIterator.is_fully_recovered N f = true ↔ ∀ i < N, (f i).count = 0 :=
  is_empty_iff N f

/-- C10: the decoding iterator is fused: when a call to `next` emits nothing,
the filter is left unchanged, and every further drive of the iterator emits
nothing and leaves the filter unchanged. -/
theorem claim_C10_iterator_fused (idxOf : HashId → List Nat) (chk : HashId → Nat)
    (N : Nat) (f : IBF) (h : (RecoverIterator.next idxOf chk N f).1 = none) :
    (RecoverIterator.next idxOf chk N f).2 = f ∧
    ∀ fuel, recover_items idxOf chk N fuel f = ([], f) := by
  have hfp : IBF.find_pure chk N f = none := by
    cases hfp : IBF.find_pure chk N f with
    | none => rfl
    | some p =>
      cases p <;> simp [RecoverIterator.next, hfp] at h
  constructor
  · simp [RecoverIterator.next, hfp]
  · intro fuel
    cases fuel with
    | zero => rfl
    | succ fuel => simp [recover_items, RecoverIterator.next, hfp]

/-- Witness for C10 on the empty filter. -/
theorem claim_C10_iterator_fused_witness :
    (RecoverIterator.next (fun _ => [0]) (fun _ => 0) 1 IBF.default).1 = none ∧
    ((RecoverIterator.next (fun _ => [0]) (fun _ => 0) 1 IBF.default).2 = IBF.default ∧
      ∀ fuel, recover_items (fun _ => [0]) (fun _ => 0) 1 fuel IBF.default
        = ([], IBF.default)) :=
  ⟨by decide, claim_C10_iterator_fused (fun _ => [0]) (fun _ => 0) 1 IBF.default (by decide)⟩

/-- C3: the source's `estimate` loop over `(-1..S).rev()` with its early
break computes exactly the specification's pseudocode: strata are visited
from `S−1` down to `0`; if every stratum decodes the exact total of
recovered items is returned, and the first stratum `s` that fails to decode
returns `2^(s+1) · count + 2^s`. -/
theorem claim_C3_estimate_refines_spec (idxOf : HashId → List Nat) (chk : HashId → Nat)
    (N fuel S : Nat) (strata : Estimator) :
    Estimator.estimate idxOf chk N fuel S strata = estimateSpec idxOf chk N fuel strata S 0 :=
  estimateLoop_eq_spec idxOf chk N fuel strata S 0

/-- C4: whenever the rejection-sampling index generator finishes, it yields
exactly `K` indices, all below `N`, pairwise distinct, and the result is
determined by the input. -/
theorem claim_C4_distinct_indices (xxh : Nat → Nat) (N K fuel : Nat) (l : List Nat)
    (hK : 1 ≤ K) (hKN : K ≤ N)
    (hres : distinct_hashes_in_range xxh N K fuel = some l) :
    l.length = K ∧ (∀ i ∈ l, i < N) ∧ l.Nodup ∧
    ∀ l2, distinct_hashes_in_range xxh N K fuel = some l2 → l2 = l := by
  have hgo : distinctHashesGo xxh N
      ((if count_ones N = 1 then N else Nat.nextPowerOfTwo N) - 1) fuel K
      (fun _ => false) 0 = some l := hres
  obtain ⟨h1, h2, h3, _⟩ := distinctHashesGo_spec xxh N
    ((if count_ones N = 1 then N else Nat.nextPowerOfTwo N) - 1) fuel K
    (fun _ => false) 0 l hgo
  refine ⟨h1, h2, h3, ?_⟩
  intro l2 hl2
  rw [hres] at hl2
  exact (Option.some_inj.mp hl2).symm

/-- Witness for C4 with the identity seed hash, `N = 4`, `K = 2`. -/
theorem claim_C4_distinct_indices_witness :
    1 ≤ 2 ∧ 2 ≤ 4 ∧ distinct_hashes_in_range (fun s => s) 4 2 8 = some [0, 1] ∧
    (([0, 1] : List Nat).length = 2 ∧ (∀ i ∈ ([0, 1] : List Nat), i < 4) ∧
      ([0, 1] : List Nat).Nodup ∧
      ∀ l2, distinct_hashes_in_range (fun s => s) 4 2 8 = some l2 → l2 = [0, 1]) :=
  ⟨by decide, by decide, by decide,
    claim_C4_distinct_indices (fun s => s) 4 2 8 [0, 1] (by decide) (by decide) (by decide)⟩

/-- C2 counterexample: with `N = 4`, `K = 2` and two distinct ids that the
index generator routes to the same two cells (`K` distinct in-range indices
for every id, as the generator guarantees), the set `{id1, id2}` has size
`2 ≤ N/2`, yet peeling emits nothing and the filter is not fully recovered:
every touched cell has count 2 and is never pure. -/
theorem claim_C2_counterexample :
    ([fun _ => 1, fun _ => 2] : List HashId).Nodup ∧
    ([fun _ => 1, fun _ => 2] : List HashId).length ≤ 4 / 2 ∧
    ([0, 1] : List Nat).length = 2 ∧ ([0, 1] : List Nat).Nodup ∧
    ([0, 1] : List Nat).all (fun i => decide (i < 4)) = true ∧
    (recover_items (fun _ => [0, 1]) (fun _ => 0) 4 8
      (ibfOf (fun _ => [0, 1]) (fun _ => 0) [fun _ => 1, fun _ => 2])).1 = [] ∧
    RecoverIterator.is_fully_recovered 4
      (recover_items (fun _ => [0, 1]) (fun _ => 0) 4 8
        (ibfOf (fun _ => [0, 1]) (fun _ => 0) [fun _ => 1, fun _ => 2])).2 = false := by
  decide

/-- C2 as amended: for a duplicate-free id list `S` with `|S| ≤ N/2` whose
ids each touch at least one cell below `N`, if no checksum collision yields a
false pure cell (`NoFalsePure`) and the peeling run reports fully recovered,
then the run emits exactly `{Pos(id) : id ∈ S}`, each exactly once, and no
negative cells. -/
theorem claim_C2_amended_recover_enumerates (idxOf : HashId → List Nat) (chk : HashId → Nat)
    (N fuel : Nat) (S : List HashId) (hS : S.Nodup) (hsize : S.length ≤ N / 2)
    (hwf : ∀ h ∈ S, ∃ i ∈ idxOf h, i < N)
    (hnfp : NoFalsePure idxOf chk N S [])
    (hrec : RecoverIterator.is_fully_recovered N
      (recover_items idxOf chk N fuel (ibfOf idxOf chk S)).2 = true) :
    List.Perm (posIds (recover_items idxOf chk N fuel (ibfOf idxOf chk S)).1) S ∧
    negIds (recover_items idxOf chk N fuel (ibfOf idxOf chk S)).1 = [] := by
  have hsub : ibfOf idxOf chk S = IBF.sub (ibfOf idxOf chk S) (ibfOf idxOf chk []) :=
    (sub_ibfOf_nil idxOf chk S).symm
  rw [hsub] at hrec ⊢
  obtain ⟨A2, B2, hsubA, hsubB, hstate, hpermA, hpermB⟩ :=
    recover_items_inv idxOf chk N S [] hnfp fuel S []
      (List.Sublist.refl S) (List.Sublist.refl [])
  have hB2 : B2 = [] := List.sublist_nil.mp hsubB
  subst hB2
  have hneg : negIds (recover_items idxOf chk N fuel
      (IBF.sub (ibfOf idxOf chk S) (ibfOf idxOf chk []))).1 = [] := by
    rw [List.nil_append] at hpermB
    exact hpermB.symm.eq_nil
  have hstate2 : (recover_items idxOf chk N fuel
        (IBF.sub (ibfOf idxOf chk S) (ibfOf idxOf chk []))).2
      = ibfOf idxOf chk A2 := by
    rw [hstate, sub_ibfOf_nil]
  rw [hstate2] at hrec
  have hA2 : A2 = [] :=
    ibfOf_empty_imp_nil idxOf chk N A2 (fun h hh => hwf h (hsubA.subset hh)) hrec
  subst hA2
  rw [List.nil_append] at hpermA
  exact ⟨hpermA.symm, hneg⟩

/-- Witness for the amended C2 on a one-element set that decodes
completely. -/
theorem claim_C2_amended_recover_enumerates_witness :
    ([fun _ => 1] : List HashId).Nodup ∧
    ([fun _ => 1] : List HashId).length ≤ 2 / 2 ∧
    (∀ h ∈ ([fun _ => 1] : List HashId), ∃ i ∈ (fun (_ : HashId) => [0]) h, i < 2) ∧
    NoFalsePure (fun _ => [0]) (fun _ => 0) 2 [fun _ => 1] [] ∧
    RecoverIterator.is_fully_recovered 2
      (recover_items (fun _ => [0]) (fun _ => 0) 2 3
        (ibfOf (fun _ => [0]) (fun _ => 0) [fun _ => 1])).2 = true ∧
    (List.Perm (posIds (recover_items (fun _ => [0]) (fun _ => 0) 2 3
        (ibfOf (fun _ => [0]) (fun _ => 0) [fun _ => 1])).1) [fun _ => 1] ∧
      negIds (recover_items (fun _ => [0]) (fun _ => 0) 2 3
        (ibfOf (fun _ => [0]) (fun _ => 0) [fun _ => 1])).1 = []) :=
  ⟨by decide, by decide, by decide, by decide, by decide,
    claim_C2_amended_recover_enumerates (fun _ => [0]) (fun _ => 0) 2 3 [fun _ => 1]
      (by decide) (by decide) (by decide) (by decide) (by decide)⟩

/-- C5 counterexample: with a checksum on which three ids collide (modelling
a 64-bit checksum collision), the difference of `{1,2}` and `{4}` over one
shared cell passes the purity test with the aggregate id `1 ⊕ 2 ⊕ 4 = 7`, so
the decoder emits `Pos(7)` although `7` is not in `S_A \ S_B` at all. -/
theorem claim_C5_counterexample :
    ([fun _ => 1, fun _ => 2] : List HashId).Nodup ∧
    ([fun _ => 4] : List HashId).Nodup ∧
    ([0] : List Nat).Nodup ∧ ([0] : List Nat).all (fun i => decide (i < 1)) = true ∧
    PureCell.Pos (fun _ => 7) ∈
      (recover_items (fun _ => [0]) (fun _ => 0) 1 1
        (IBF.sub (ibfOf (fun _ => [0]) (fun _ => 0) [fun _ => 1, fun _ => 2])
          (ibfOf (fun _ => [0]) (fun _ => 0) [fun _ => 4]))).1 ∧
    ((fun _ => 7) : HashId) ∉ ([fun _ => 1, fun _ => 2] : List HashId) := by
  decide

/-- C5 as amended: provided no checksum collision produces a false pure cell
over the remainders of the two difference sides (`NoFalsePure`), every
`Pos(id)` the decoder emits from `ibf(S_A) − ibf(S_B)` satisfies
`id ∈ S_A \ S_B`, and every `Neg(id)` satisfies `id ∈ S_B \ S_A`, even when
the decode does not fully recover. -/
theorem claim_C5_amended_no_false_positives (idxOf : HashId → List Nat)
    (chk : HashId → Nat) (N fuel : Nat) (SA SB : List HashId)
    (hA : SA.Nodup) (hB : SB.Nodup)
    (hnfp : NoFalsePure idxOf chk N (SA.filter fun x => decide (x ∉ SB))
      (SB.filter fun x => decide (x ∉ SA))) :
    (∀ x ∈ posIds (recover_items idxOf chk N fuel
        (IBF.sub (ibfOf idxOf chk SA) (ibfOf idxOf chk SB))).1, x ∈ SA ∧ x ∉ SB) ∧
    (∀ x ∈ negIds (recover_items idxOf chk N fuel
        (IBF.sub (ibfOf idxOf chk SA) (ibfOf idxOf chk SB))).1, x ∈ SB ∧ x ∉ SA) := by
  rw [sub_ibfOf_filtered idxOf chk SA SB hA hB]
  obtain ⟨A2, B2, _, _, _, hpermA, hpermB⟩ :=
    recover_items_inv idxOf chk N _ _ hnfp fuel
      (SA.filter fun x => decide (x ∉ SB)) (SB.filter fun x => decide (x ∉ SA))
      (List.Sublist.refl _) (List.Sublist.refl _)
  constructor
  · intro x hx
    have hxd : x ∈ SA.filter fun x => decide (x ∉ SB) :=
      hpermA.symm.subset (List.mem_append_right A2 hx)
    have := List.mem_filter.mp hxd
    exact ⟨this.1, of_decide_eq_true this.2⟩
  · intro x hx
    have hxd : x ∈ SB.filter fun x => decide (x ∉ SA) :=
      hpermB.symm.subset (List.mem_append_right B2 hx)
    have := List.mem_filter.mp hxd
    exact ⟨this.1, of_decide_eq_true this.2⟩

/-- Witness for the amended C5 on a one-element difference. -/
theorem claim_C5_amended_no_false_positives_witness :
    ([fun _ => 1] : List HashId).Nodup ∧
    ([] : List HashId).Nodup ∧
    NoFalsePure (fun _ => [0]) (fun _ => 0) 1
      (([fun _ => 1] : List HashId).filter fun x => decide (x ∉ ([] : List HashId)))
      (([] : List HashId).filter fun x => decide (x ∉ ([fun _ => 1] : List HashId))) ∧
    ((∀ x ∈ posIds (recover_items (fun _ => [0]) (fun _ => 0) 1 2
        (IBF.sub (ibfOf (fun _ => [0]) (fun _ => 0) [fun _ => 1])
          (ibfOf (fun _ => [0]) (fun _ => 0) []))).1,
        x ∈ ([fun _ => 1] : List HashId) ∧ x ∉ ([] : List HashId)) ∧
      (∀ x ∈ negIds (recover_items (fun _ => [0]) (fun _ => 0) 1 2
        (IBF.sub (ibfOf (fun _ => [0]) (fun _ => 0) [fun _ => 1])
          (ibfOf (fun _ => [0]) (fun _ => 0) []))).1,
        x ∈ ([] : List HashId) ∧ x ∉ ([fun _ => 1] : List HashId))) :=
  ⟨by decide, by decide, by decide,
    claim_C5_amended_no_false_positives (fun _ => [0]) (fun _ => 0) 1 2
      [fun _ => 1] [] (by decide) (by decide) (by decide)⟩
